import Mathlib

/-!
Verification development for the SPF-checker (`src/app.js`).

Strings are modelled as `List Char` (JS strings are character sequences; all
inputs of interest are ASCII).  The JS global regex scans used by
`countDNSLookups` and `extractIncludes` are modelled by structurally
recursive scanners driven by a fuel argument equal to the string length
(each step of the JS scan advances at least one character, so this fuel is
always sufficient; fuel-irrelevance is proved below).  The DNS-over-HTTPS
resolver is modelled as a function environment: `none` models a lookup that
throws, `some rs` models a successful `fetchSPFRecords` result.
-/

namespace SPFCheck

abbrev Str := List Char

/-- JS regex whitespace class `\s`, restricted to its ASCII part
(space, tab, line feed, vertical tab, form feed, carriage return).
The records handled by the program are ASCII. -/
def isWS (c : Char) : Bool :=
  c = ' ' || c = '\t' || c = '\n' || c = '\x0b' || c = '\x0c' || c = '\r'

/-- JS regex word class `\w` = `[A-Za-z0-9_]`, used by the `\b` boundary. -/
def isWordChar (c : Char) : Bool :=
  ('a' ≤ c && c ≤ 'z') || ('A' ≤ c && c ≤ 'Z') || ('0' ≤ c && c ≤ '9') || c = '_'

/-- A `\b` word boundary holds at a position whose neighbouring character on
the given side is absent (string edge) or a non-word character. -/
def nonWordB : Option Char → Bool
  | none => true
  | some c => !isWordChar c

/-- Boolean list-prefix test (literal regex fragment matching at a position). -/
def isPre : Str → Str → Bool
  | [], _ => true
  | _ :: _, [] => false
  | a :: as, b :: bs => a = b && isPre as bs

/-- Fuel-driven model of `spfRecord.match(/pat/g).length` for a literal
pattern `pat`: scan left to right, count non-overlapping occurrences,
advancing past each match, else advancing one character.  The fuel is the
length of the scanned string (sufficient: each step consumes at least one
character when `pat` is nonempty). -/
def countOccurF (pat : Str) : Nat → Str → Nat
  | 0, _ => 0
  | _ + 1, [] => 0
  | fuel + 1, c :: cs =>
    if isPre pat (c :: cs) then 1 + countOccurF pat fuel ((c :: cs).drop pat.length)
    else countOccurF pat fuel cs

def countOccur (pat s : Str) : Nat := countOccurF pat s.length s

/-- Fuel-driven model of `spfRecord.match(/\bpat\b/g).length` for a pattern
`pat` made of word characters (the program uses `a`, `mx`, `ptr`): a match
needs the literal `pat` with a non-word character (or edge) on both sides.
`prev` is the character just before the current position (`none` at the
start).  After a match the scan resumes after the match, so `prev` becomes
the last character of `pat`. -/
def countWordF (pat : Str) : Nat → Option Char → Str → Nat
  | 0, _, _ => 0
  | _ + 1, _, [] => 0
  | fuel + 1, prev, c :: cs =>
    if nonWordB prev && isPre pat (c :: cs) && nonWordB ((c :: cs).drop pat.length).head?
    then 1 + countWordF pat fuel pat.getLast? ((c :: cs).drop pat.length)
    else countWordF pat fuel (some c) cs

/-- `countWordF` from an arbitrary left context. -/
def countWordP (pat : Str) (prev : Option Char) (s : Str) : Nat :=
  countWordF pat s.length prev s

def countWord (pat s : Str) : Nat := countWordP pat none s

/-- Fuel-driven model of one global pass of the JS regex `pat([^\s]+)`
(the same automaton implements `.match(/include:([^\s]+)/g)` on line 112 and
the `exec` loops of `extractIncludes`, whose regexes `include:([\S]+)` /
`redirect=([\S]+)` are identical to it): at each position try the literal
`pat` followed by a maximal nonempty run of non-whitespace characters; on
success emit the captured run and resume after the match, otherwise advance
one character.  Returns the captured groups in order of occurrence. -/
def scanTokF (pat : Str) : Nat → Str → List Str
  | 0, _ => []
  | _ + 1, [] => []
  | fuel + 1, c :: cs =>
    if isPre pat (c :: cs) then
      let dom := ((c :: cs).drop pat.length).takeWhile (fun ch => !isWS ch)
      if dom.isEmpty then scanTokF pat fuel cs
      else dom :: scanTokF pat fuel (((c :: cs).drop pat.length).drop dom.length)
    else scanTokF pat fuel cs

def scanTok (pat s : Str) : List Str := scanTokF pat s.length s

/-- Model of JS `s.replace(pat, '')` for a string pattern: remove the first
occurrence of `pat`, if any (used on line 113 as `m.replace('include:', '')`). -/
def replaceFirst (pat : Str) : Str → Str
  | [] => []
  | c :: cs =>
    if isPre pat (c :: cs) then (c :: cs).drop pat.length
    else c :: replaceFirst pat cs

def incPat : Str := "include:".toList
def redPat : Str := "redirect=".toList
def aPat : Str := "a".toList
def mxPat : Str := "mx".toList
def ptrPat : Str := "ptr".toList
def existsPat : Str := "exists:".toList
def spfPat : Str := "v=spf1".toList

/-- Line 112: `spfRecord.match(/include:([^\s]+)/g) || []` — the full match
at each site is the literal `include:` followed by the captured run. -/
def includeMatches (rec : Str) : List Str :=
  (scanTok incPat rec).map (fun d => incPat ++ d)

/-- Line 113: `includeMatches.map(m => m.replace('include:', ''))`. -/
def includeDomains (rec : Str) : List Str :=
  (includeMatches rec).map (replaceFirst incPat)

/-- Lines 115-120: the direct lookup cost of one record — one unit per
`include:` match, per `redirect=` occurrence, per `\ba\b`, `\bmx\b`,
`\bptr\b` word match and per `exists:` occurrence. -/
def directCost (rec : Str) : Nat :=
  (includeMatches rec).length
    + countOccur redPat rec
    + countWord aPat rec
    + countWord mxPat rec
    + countWord ptrPat rec
    + countOccur existsPat rec

/-- The DNS environment seen by `countDNSLookups`: for a domain,
`none` models `fetchSPFRecords` throwing, `some rs` models it returning the
list `rs` of SPF records. -/
abbrev DNS := Str → Option (List Str)

/-- Lines 122-133: the `for (const domain of includeDomains)` loop.  `step`
is the recursive call at the next depth.  The visited set is modelled as a
list in insertion order; `visited.add` happens before the fetch, so a failed
fetch still leaves the domain marked visited.  A fetch returning no records
(`some []`) and a throwing fetch (`none`) both contribute nothing. -/
def loopWith (step : Str → List Str → Nat × List Str) (dns : DNS) :
    List Str → List Str → Nat × List Str
  | [], visited => (0, visited)
  | d :: ds, visited =>
    if d ∈ visited then loopWith step dns ds visited
    else
      match dns d with
      | some (r :: _) =>
        let s := step r (visited ++ [d])
        let t := loopWith step dns ds s.2
        (s.1 + t.1, t.2)
      | _ => loopWith step dns ds (visited ++ [d])

/-- `countDNSLookups` with fuel `11 - depth`: fuel `0` is the line 109 guard
`if (depth > 10) return 0`, and each nested call runs at `depth + 1`,
i.e. with one unit of fuel less.  Returns the count together with the final
visited set. -/
def countLookupsFuel (dns : DNS) : Nat → Str → List Str → Nat × List Str
  | 0, _, visited => (0, visited)
  | fuel + 1, rec, visited =>
    let s := loopWith (fun r v => countLookupsFuel dns fuel r v) dns (includeDomains rec) visited
    (directCost rec + s.1, s.2)

/-- Lines 108-136: `countDNSLookups(spfRecord, visited, depth)`. -/
def countLookups (dns : DNS) (rec : Str) (visited : List Str) (depth : Nat) :
    Nat × List Str :=
  countLookupsFuel dns (11 - depth) rec visited

/-- The objects pushed by `extractIncludes`: `{ type: 'include'|'redirect',
domain }`. -/
structure IncludeEdge where
  type : Str
  domain : Str
deriving DecidableEq

def incTypeStr : Str := "include".toList
def redTypeStr : Str := "redirect".toList

/-- Lines 187-202: `extractIncludes` — one `exec` loop over
`include:([\S]+)`, then one over `redirect=([\S]+)`, concatenated. -/
def extractIncludes (rec : Str) : List IncludeEdge :=
  (scanTok incPat rec).map (fun d => { type := incTypeStr, domain := d })
    ++ (scanTok redPat rec).map (fun d => { type := redTypeStr, domain := d })

/-- One entry of the resolver JSON `Answer` array. -/
structure DNSAnswer where
  type : Int
  data : Str
deriving DecidableEq

/-- The resolver JSON response body. -/
structure DNSResponse where
  Status : Int
  Answer : Option (List DNSAnswer)
deriving DecidableEq

/-- Outcome of the outbound `fetch`: transport failure (the `fetch` promise
rejects), non-success HTTP response (`!response.ok`), or a delivered JSON
body. -/
inductive FetchOutcome where
  | transportError (msg : Str)
  | httpError (statusText : Str)
  | success (resp : DNSResponse)
deriving DecidableEq

/-- Line 95: `record.data.replace(/^"|"$/g, '')` — strip one leading and one
trailing double quote, each if present (anchored, so at most one each). -/
def stripQuotes (s : Str) : Str :=
  let s1 := if s.head? = some '"' then s.tail else s
  if s1.getLast? = some '"' then s1.dropLast else s1

def noSPFMsg : Str := ('N' :: "o SPF record found".toList)
def errMsgPre : Str := ('E' :: "rror: ".toList)
def dnsHttpMsg : Str := ('D' :: "NS lookup failed: ".toList)
def dnsStatusMsg : Str := ('D' :: "NS query failed - domain may not exist".toList)

/-- Lines 82-97: `fetchSPFRecords` — throw on transport failure, non-ok
response, or nonzero resolver `Status`; with no `Answer` return `[]`; else
keep TXT (`type === 16`) entries, strip surrounding quotes, and keep those
starting with `v=spf1`, in response order. -/
def fetchSPFRecords : FetchOutcome → Except Str (List Str)
  | .transportError msg => .error msg
  | .httpError st => .error (dnsHttpMsg ++ st)
  | .success resp =>
    if resp.Status ≠ 0 then .error dnsStatusMsg
    else
      match resp.Answer with
      | none => .ok []
      | some answers =>
        .ok ((((answers.filter (fun a => a.type = 16)).map
          (fun a => stripQuotes a.data)).filter (fun r => isPre spfPat r)))

/-- Lines 99-106: `fetchIncludedDomain` — first record on success, fixed
message if none, `Error: <message>` if resolution threw. -/
def fetchIncludedDomain (env : Str → FetchOutcome) (domain : Str) : Str :=
  match fetchSPFRecords (env domain) with
  | .ok (r :: _) => r
  | .ok [] => noSPFMsg
  | .error e => errMsgPre ++ e

def ip4Pat : Str := "ip4:".toList
def ip6Pat : Str := "ip6:".toList

/-- A record position right after a whole whitespace-separated token:
what follows is either the end of the record or a whitespace character. -/
def wsHeaded (post : Str) : Prop :=
  post = [] ∨ ∃ w rest, post = w :: rest ∧ isWS w = true

/-- Characters of a dotted-decimal IPv4 address or CIDR range. -/
def ip4Chars : Str := "0123456789./".toList

/-- Characters of a lowercase-hex IPv6 address or CIDR range. -/
def ip6Chars : Str := "0123456789abcdef:./".toList

/-- Direct cost of the first record of a resolution result (`0` when the
resolution fails or returns no record). -/
def headDirectCost : Option (List Str) → Nat
  | some (r :: _) => directCost r
  | _ => 0

def dnsNone : DNS := fun _ => none

/-- C1 counterexample inputs: the included domain resolves to a record with
no further includes but with one `mx` mechanism. -/
def recFlatC : Str := "v=spf1 include:x.example ~all".toList
def dnsFlatC : DNS := fun d =>
  if d = "x.example".toList then some ["v=spf1 mx ~all".toList] else none

/-- C1 witness inputs: the included domain resolves to a record whose direct
cost is zero. -/
def recFlatW : Str := "v=spf1 include:x.example mx ~all".toList
def dnsFlatW : DNS := fun d =>
  if d = "x.example".toList then some ["v=spf1 ip4:1.2.3.4 -all".toList] else none

/-- C3 witness inputs: two domains whose records include each other. -/
def recCycA : Str := "v=spf1 include:b.example -all".toList
def recCycB : Str := "v=spf1 include:a.example -all".toList
def dnsCyc : DNS := fun d =>
  if d = "b.example".toList then some [recCycB]
  else if d = "a.example".toList then some [recCycA]
  else none

/-- C4 inputs: a chain of 15 nested single-include records
`chainRec 1, ..., chainRec 15`, where the record of the domain
`chainDom i` is `chainRec i` and `chainRec i` includes `chainDom (i+1)`. -/
def chainDom (i : Nat) : Str := 'n' :: (List.replicate i 'x' ++ ".example".toList)
def chainRec (i : Nat) : Str :=
  "v=spf1 include:".toList ++ chainDom (i + 1) ++ " -all".toList
def chainTable : List (Str × List Str) :=
  (List.range 14).map (fun j => (chainDom (j + 2), [chainRec (j + 2)]))
def dnsChain : DNS := fun d => chainTable.lookup d

/-- C7 witness inputs: the first included domain fails to resolve under
`dnsSwalA` and resolves to no records under `dnsSwalB`; the second one
resolves to a one-lookup record under both. -/
def recSwal : Str := "v=spf1 include:bad.example include:good.example -all".toList
def dnsSwalA : DNS := fun d =>
  if d = "good.example".toList then some ["v=spf1 mx -all".toList] else none
def dnsSwalB : DNS := fun d =>
  if d = "bad.example".toList then some [] else dnsSwalA d

/-- C5 witness inputs: a record whose only reference is a `redirect=`
target, and a resolver that resolves that target to a record with further
includes.  Since redirect targets are never followed, resolving the target
or not must make no difference. -/
def recRedirW : Str := "v=spf1 redirect=r.example -all".toList
def dnsRedirW : DNS := fun d =>
  if d = "r.example".toList then some ["v=spf1 include:a.com -all".toList] else none

/-- C8 witness input: a delivered response whose answers contain no SPF
record (one TXT entry that is not SPF, one SPF-looking entry that is not
TXT). -/
def outNoSPF : FetchOutcome :=
  .success { Status := 0,
             Answer := some [{ type := 16, data := "\"hello\"".toList },
                             { type := 1, data := "\"v=spf1 x\"".toList }] }

/-- C9 witness input: every domain resolves to one quoted SPF TXT answer. -/
def envOneRec : Str → FetchOutcome := fun _ =>
  .success { Status := 0,
             Answer := some [{ type := 16, data := "\"v=spf1 -all\"".toList }] }

/-! ### Basic lemmas about the scanners -/

theorem isPre_append_self (as bs : Str) : isPre as (as ++ bs) = true := by
  induction as with
  | nil => rfl
  | cons a as ih => simp [isPre, ih]

theorem isPre_length {as bs : Str} (h : isPre as bs = true) : as.length ≤ bs.length := by
  induction as generalizing bs with
  | nil => simp
  | cons a as ih =>
    cases bs with
    | nil => simp [isPre] at h
    | cons b bs =>
      simp only [isPre, Bool.and_eq_true] at h
      simpa using ih h.2

theorem isPre_mem {as bs : Str} (h : isPre as bs = true) : ∀ a ∈ as, a ∈ bs := by
  induction as generalizing bs with
  | nil => simp
  | cons a as ih =>
    cases bs with
    | nil => simp [isPre] at h
    | cons b bs =>
      simp only [isPre, Bool.and_eq_true, decide_eq_true_eq] at h
      intro x hx
      rcases List.mem_cons.mp hx with hx | hx
      · exact h.1 ▸ hx ▸ List.mem_cons_self _ _
      · exact List.mem_cons_of_mem _ (ih h.2 x hx)

/-- A literal pattern match cannot look past a character absent from the
pattern: matching against `xs ++ w :: ys` is the same as matching against
`xs` when `w` does not occur in the pattern. -/
theorem isPre_append_sep {as : Str} {w : Char} (hw : w ∉ as) (xs ys : Str) :
    isPre as (xs ++ w :: ys) = isPre as xs := by
  induction as generalizing xs with
  | nil => rfl
  | cons a as ih =>
    cases xs with
    | nil =>
      have : a ≠ w := fun h => hw (h ▸ List.mem_cons_self _ _)
      simp [isPre, this]
    | cons x xs =>
      have hw' : w ∉ as := fun h => hw (List.mem_cons_of_mem _ h)
      simp [isPre, ih hw']

theorem countOccurF_nil (pat : Str) (n : Nat) : countOccurF pat n [] = 0 := by
  cases n <;> rfl

theorem countOccurF_congr {pat : Str} (hpat : pat ≠ []) :
    ∀ n m s, s.length ≤ n → s.length ≤ m → countOccurF pat n s = countOccurF pat m s := by
  intro n
  induction n with
  | zero =>
    intro m s hn _
    have : s = [] := List.length_eq_zero.mp (Nat.le_zero.mp hn)
    subst this
    simp [countOccurF_nil]
  | succ n ih =>
    intro m s hn hm
    cases s with
    | nil => simp [countOccurF_nil]
    | cons c cs =>
      have hpos : 0 < pat.length := List.length_pos.mpr hpat
      cases m with
      | zero => simp at hm
      | succ m =>
        simp only [List.length_cons, Nat.succ_le_succ_iff] at hn hm
        simp only [countOccurF]
        by_cases h : isPre pat (c :: cs) = true
        · rw [if_pos h, if_pos h]
          have hd : ((c :: cs).drop pat.length).length ≤ cs.length := by
            simp only [List.length_drop, List.length_cons]
            omega
          rw [ih m _ (le_trans hd hn) (le_trans hd hm)]
        · rw [if_neg h, if_neg h]
          exact ih m cs hn hm

theorem countOccur_cons {pat : Str} (hpat : pat ≠ []) (c : Char) (cs : Str) :
    countOccur pat (c :: cs) =
      if isPre pat (c :: cs) then 1 + countOccur pat ((c :: cs).drop pat.length)
      else countOccur pat cs := by
  have hpos : 0 < pat.length := List.length_pos.mpr hpat
  have hd : ((c :: cs).drop pat.length).length ≤ cs.length := by
    simp only [List.length_drop, List.length_cons]
    omega
  unfold countOccur
  simp only [List.length_cons, countOccurF]
  by_cases h : isPre pat (c :: cs) = true
  · rw [if_pos h, if_pos h, countOccurF_congr hpat cs.length _ _ hd le_rfl]
  · rw [if_neg h, if_neg h]

theorem countWordF_nil (pat : Str) (n : Nat) (prev : Option Char) :
    countWordF pat n prev [] = 0 := by
  cases n <;> rfl

theorem countWordF_congr {pat : Str} (hpat : pat ≠ []) :
    ∀ n m prev s, s.length ≤ n → s.length ≤ m →
      countWordF pat n prev s = countWordF pat m prev s := by
  intro n
  induction n with
  | zero =>
    intro m prev s hn _
    have : s = [] := List.length_eq_zero.mp (Nat.le_zero.mp hn)
    subst this
    simp [countWordF_nil]
  | succ n ih =>
    intro m prev s hn hm
    cases s with
    | nil => simp [countWordF_nil]
    | cons c cs =>
      have hpos : 0 < pat.length := List.length_pos.mpr hpat
      cases m with
      | zero => simp at hm
      | succ m =>
        simp only [List.length_cons, Nat.succ_le_succ_iff] at hn hm
        simp only [countWordF]
        by_cases h : (nonWordB prev && isPre pat (c :: cs)
            && nonWordB ((c :: cs).drop pat.length).head?) = true
        · rw [if_pos h, if_pos h]
          have hd : ((c :: cs).drop pat.length).length ≤ cs.length := by
            simp only [List.length_drop, List.length_cons]
            omega
          rw [ih m _ _ (le_trans hd hn) (le_trans hd hm)]
        · rw [if_neg h, if_neg h]
          exact ih m _ cs hn hm

theorem countWordP_cons {pat : Str} (hpat : pat ≠ []) (prev : Option Char)
    (c : Char) (cs : Str) :
    countWordP pat prev (c :: cs) =
      if nonWordB prev && isPre pat (c :: cs)
          && nonWordB ((c :: cs).drop pat.length).head?
      then 1 + countWordP pat pat.getLast? ((c :: cs).drop pat.length)
      else countWordP pat (some c) cs := by
  have hpos : 0 < pat.length := List.length_pos.mpr hpat
  have hd : ((c :: cs).drop pat.length).length ≤ cs.length := by
    simp only [List.length_drop, List.length_cons]
    omega
  unfold countWordP
  simp only [List.length_cons, countWordF]
  by_cases h : (nonWordB prev && isPre pat (c :: cs)
      && nonWordB ((c :: cs).drop pat.length).head?) = true
  · rw [if_pos h, if_pos h, countWordF_congr hpat cs.length _ _ _ hd le_rfl]
  · rw [if_neg h, if_neg h]

theorem scanTokF_nil (pat : Str) (n : Nat) : scanTokF pat n [] = [] := by
  cases n <;> rfl

theorem scanTokF_congr {pat : Str} (hpat : pat ≠ []) :
    ∀ n m s, s.length ≤ n → s.length ≤ m → scanTokF pat n s = scanTokF pat m s := by
  intro n
  induction n with
  | zero =>
    intro m s hn _
    have : s = [] := List.length_eq_zero.mp (Nat.le_zero.mp hn)
    subst this
    simp [scanTokF_nil]
  | succ n ih =>
    intro m s hn hm
    cases s with
    | nil => simp [scanTokF_nil]
    | cons c cs =>
      have hpos : 0 < pat.length := List.length_pos.mpr hpat
      cases m with
      | zero => simp at hm
      | succ m =>
        simp only [List.length_cons, Nat.succ_le_succ_iff] at hn hm
        simp only [scanTokF]
        by_cases h : isPre pat (c :: cs) = true
        · rw [if_pos h, if_pos h]
          by_cases hdom :
              (((c :: cs).drop pat.length).takeWhile (fun ch => !isWS ch)).isEmpty = true
          · rw [if_pos hdom, if_pos hdom]
            exact ih m cs hn hm
          · rw [if_neg hdom, if_neg hdom]
            have hd : (((c :: cs).drop pat.length).drop
                (((c :: cs).drop pat.length).takeWhile (fun ch => !isWS ch)).length).length
                  ≤ cs.length := by
              simp only [List.length_drop, List.length_cons]
              omega
            rw [ih m _ (le_trans hd hn) (le_trans hd hm)]
        · rw [if_neg h, if_neg h]
          exact ih m cs hn hm

theorem scanTok_cons {pat : Str} (hpat : pat ≠ []) (c : Char) (cs : Str) :
    scanTok pat (c :: cs) =
      if isPre pat (c :: cs) then
        if (((c :: cs).drop pat.length).takeWhile (fun ch => !isWS ch)).isEmpty then
          scanTok pat cs
        else
          ((c :: cs).drop pat.length).takeWhile (fun ch => !isWS ch)
            :: scanTok pat (((c :: cs).drop pat.length).drop
                (((c :: cs).drop pat.length).takeWhile (fun ch => !isWS ch)).length)
      else scanTok pat cs := by
  have hpos : 0 < pat.length := List.length_pos.mpr hpat
  unfold scanTok
  simp only [List.length_cons, scanTokF]
  by_cases h : isPre pat (c :: cs) = true
  · rw [if_pos h, if_pos h]
    by_cases hdom :
        (((c :: cs).drop pat.length).takeWhile (fun ch => !isWS ch)).isEmpty = true
    · rw [if_pos hdom, if_pos hdom]
    · rw [if_neg hdom, if_neg hdom]
      have hd : (((c :: cs).drop pat.length).drop
          (((c :: cs).drop pat.length).takeWhile (fun ch => !isWS ch)).length).length
            ≤ cs.length := by
        simp only [List.length_drop, List.length_cons]
        omega
      rw [scanTokF_congr hpat cs.length _ _ hd le_rfl]
  · rw [if_neg h, if_neg h]

/-! ### Splitting a scan at a separator character

A whitespace character that does not occur in the pattern acts as a wall:
no match of any of the scanners can straddle it, so a scan of
`xs ++ w :: ys` decomposes into the scan of `xs` and the scan of `ys`. -/

theorem isWS_not_word {c : Char} (h : isWS c = true) : isWordChar c = false := by
  simp only [isWS, Bool.or_eq_true, decide_eq_true_eq] at h
  rcases h with ((((h | h) | h) | h) | h) | h <;> subst h <;> decide

theorem takeWhile_length_le (P : Char → Bool) (l : Str) :
    (l.takeWhile P).length ≤ l.length := by
  induction l with
  | nil => simp
  | cons c cs ih =>
    by_cases h : P c = true
    · rw [List.takeWhile_cons, if_pos h]
      simpa using ih
    · rw [List.takeWhile_cons, if_neg h]
      simp

theorem takeWhile_append_sep {P : Char → Bool} {w : Char} (hw : P w = false)
    (xs ys : Str) : (xs ++ w :: ys).takeWhile P = xs.takeWhile P := by
  induction xs with
  | nil => simp [List.takeWhile_cons, hw]
  | cons c cs ih =>
    by_cases h : P c = true
    · simp only [List.cons_append, List.takeWhile_cons, if_pos h, ih]
    · simp only [List.cons_append, List.takeWhile_cons, if_neg h]

theorem isPre_nil_false {pat : Str} (hpat : pat ≠ []) : isPre pat [] = false := by
  cases pat with
  | nil => exact absurd rfl hpat
  | cons p ps => rfl

theorem isPre_sep_head {pat : Str} (hpat : pat ≠ []) {w : Char} (hw : w ∉ pat)
    (ys : Str) : isPre pat (w :: ys) = false := by
  have h := isPre_append_sep hw [] ys
  simpa [isPre_nil_false hpat] using h

theorem countOccur_sep {pat : Str} (hpat : pat ≠ []) {w : Char} (hw : w ∉ pat)
    (xs ys : Str) :
    countOccur pat (xs ++ w :: ys) = countOccur pat xs + countOccur pat ys := by
  have base : countOccur pat (w :: ys) = countOccur pat ys := by
    rw [countOccur_cons hpat, if_neg]
    simp [isPre_sep_head hpat hw]
  have key : ∀ n xs, xs.length ≤ n →
      countOccur pat (xs ++ w :: ys) = countOccur pat xs + countOccur pat ys := by
    intro n
    induction n with
    | zero =>
      intro xs hn
      have : xs = [] := List.length_eq_zero.mp (Nat.le_zero.mp hn)
      subst this
      simpa [countOccur, countOccurF_nil] using base
    | succ n ih =>
      intro xs hn
      cases xs with
      | nil => simpa [countOccur, countOccurF_nil] using base
      | cons c cs =>
        simp only [List.length_cons, Nat.succ_le_succ_iff] at hn
        have hsep : isPre pat ((c :: cs) ++ w :: ys) = isPre pat (c :: cs) :=
          isPre_append_sep hw (c :: cs) ys
        rw [List.cons_append, countOccur_cons hpat, countOccur_cons hpat c cs]
        by_cases h : isPre pat (c :: cs) = true
        · rw [if_pos (by rw [← List.cons_append, hsep]; exact h), if_pos h]
          have hlen : pat.length ≤ (c :: cs).length := isPre_length h
          have hdrop : (c :: (cs ++ w :: ys)).drop pat.length
              = (c :: cs).drop pat.length ++ w :: ys := by
            rw [← List.cons_append]
            exact List.drop_append_of_le_length hlen
          have hdl : ((c :: cs).drop pat.length).length ≤ n := by
            have hpos : 0 < pat.length := List.length_pos.mpr hpat
            simp only [List.length_drop, List.length_cons]
            omega
          rw [hdrop, ih _ hdl]
          omega
        · rw [if_neg (by rw [← List.cons_append, hsep]; exact h), if_neg h]
          exact ih cs hn
  exact key xs.length xs le_rfl

theorem countWordP_prev {pat : Str} (hpat : pat ≠ []) {p q : Option Char}
    (h : nonWordB p = nonWordB q) (s : Str) :
    countWordP pat p s = countWordP pat q s := by
  cases s with
  | nil => simp [countWordP, countWordF_nil]
  | cons c cs => rw [countWordP_cons hpat, countWordP_cons hpat, h]

theorem countWordP_sep {pat : Str} (hpat : pat ≠ []) {w : Char} (hw : w ∉ pat)
    (hwrd : isWordChar w = false) (xs ys : Str) (prev : Option Char) :
    countWordP pat prev (xs ++ w :: ys)
      = countWordP pat prev xs + countWordP pat (some w) ys := by
  have base : ∀ prev, countWordP pat prev (w :: ys) = countWordP pat (some w) ys := by
    intro prev
    rw [countWordP_cons hpat, if_neg]
    simp [isPre_sep_head hpat hw]
  have key : ∀ n xs prev, xs.length ≤ n →
      countWordP pat prev (xs ++ w :: ys)
        = countWordP pat prev xs + countWordP pat (some w) ys := by
    intro n
    induction n with
    | zero =>
      intro xs prev hn
      have : xs = [] := List.length_eq_zero.mp (Nat.le_zero.mp hn)
      subst this
      simpa [countWordP, countWordF_nil] using base prev
    | succ n ih =>
      intro xs prev hn
      cases xs with
      | nil => simpa [countWordP, countWordF_nil] using base prev
      | cons c cs =>
        simp only [List.length_cons, Nat.succ_le_succ_iff] at hn
        have hsep : isPre pat ((c :: cs) ++ w :: ys) = isPre pat (c :: cs) :=
          isPre_append_sep hw (c :: cs) ys
        rw [List.cons_append, countWordP_cons hpat, countWordP_cons hpat prev c cs]
        by_cases h : isPre pat (c :: cs) = true
        · have hlen : pat.length ≤ (c :: cs).length := isPre_length h
          have hdrop : (c :: (cs ++ w :: ys)).drop pat.length
              = (c :: cs).drop pat.length ++ w :: ys := by
            rw [← List.cons_append]
            exact List.drop_append_of_le_length hlen
          have hhead : nonWordB ((c :: (cs ++ w :: ys)).drop pat.length).head?
              = nonWordB ((c :: cs).drop pat.length).head? := by
            rw [hdrop]
            cases hrest : (c :: cs).drop pat.length with
            | nil => simp [nonWordB, hwrd]
            | cons d ds => simp
          have hcond : (nonWordB prev && isPre pat (c :: (cs ++ w :: ys))
                && nonWordB ((c :: (cs ++ w :: ys)).drop pat.length).head?)
              = (nonWordB prev && isPre pat (c :: cs)
                && nonWordB ((c :: cs).drop pat.length).head?) := by
            rw [hhead]
            rw [show isPre pat (c :: (cs ++ w :: ys)) = isPre pat (c :: cs) by
              rw [← List.cons_append]; exact hsep]
          rw [hcond]
          by_cases hc : (nonWordB prev && isPre pat (c :: cs)
              && nonWordB ((c :: cs).drop pat.length).head?) = true
          · rw [if_pos hc, if_pos hc]
            have hdl : ((c :: cs).drop pat.length).length ≤ n := by
              have hpos : 0 < pat.length := List.length_pos.mpr hpat
              simp only [List.length_drop, List.length_cons]
              omega
            rw [hdrop, ih _ _ hdl]
            omega
          · rw [if_neg hc, if_neg hc]
            exact ih cs (some c) hn
        · have hcond : (nonWordB prev && isPre pat (c :: (cs ++ w :: ys))
                && nonWordB ((c :: (cs ++ w :: ys)).drop pat.length).head?) = false := by
            rw [show isPre pat (c :: (cs ++ w :: ys)) = isPre pat (c :: cs) by
              rw [← List.cons_append]; exact hsep]
            simp [h]
          rw [if_neg (show ¬ _ = true by rw [hcond]; exact Bool.false_ne_true),
            if_neg (show ¬ _ = true by simp [h])]
          exact ih cs (some c) hn
  exact key xs.length xs prev le_rfl

theorem scanTok_sep {pat : Str} (hpat : pat ≠ []) {w : Char} (hwws : isWS w = true)
    (hw : w ∉ pat) (xs ys : Str) :
    scanTok pat (xs ++ w :: ys) = scanTok pat xs ++ scanTok pat ys := by
  have base : scanTok pat (w :: ys) = scanTok pat ys := by
    rw [scanTok_cons hpat, if_neg]
    simp [isPre_sep_head hpat hw]
  have key : ∀ n xs, xs.length ≤ n →
      scanTok pat (xs ++ w :: ys) = scanTok pat xs ++ scanTok pat ys := by
    intro n
    induction n with
    | zero =>
      intro xs hn
      have : xs = [] := List.length_eq_zero.mp (Nat.le_zero.mp hn)
      subst this
      simpa [scanTok, scanTokF_nil] using base
    | succ n ih =>
      intro xs hn
      cases xs with
      | nil => simpa [scanTok, scanTokF_nil] using base
      | cons c cs =>
        simp only [List.length_cons, Nat.succ_le_succ_iff] at hn
        have hsep : isPre pat ((c :: cs) ++ w :: ys) = isPre pat (c :: cs) :=
          isPre_append_sep hw (c :: cs) ys
        rw [List.cons_append, scanTok_cons hpat, scanTok_cons hpat c cs]
        by_cases h : isPre pat (c :: cs) = true
        · rw [if_pos (by rw [← List.cons_append, hsep]; exact h), if_pos h]
          have hlen : pat.length ≤ (c :: cs).length := isPre_length h
          have hdrop : (c :: (cs ++ w :: ys)).drop pat.length
              = (c :: cs).drop pat.length ++ w :: ys := by
            rw [← List.cons_append]
            exact List.drop_append_of_le_length hlen
          have hWSfalse : (fun ch => !isWS ch) w = false := by simp [hwws]
          have hdom : ((c :: (cs ++ w :: ys)).drop pat.length).takeWhile (fun ch => !isWS ch)
              = ((c :: cs).drop pat.length).takeWhile (fun ch => !isWS ch) := by
            rw [hdrop, takeWhile_append_sep hWSfalse]
          rw [hdom]
          by_cases hemp : (((c :: cs).drop pat.length).takeWhile (fun ch => !isWS ch)).isEmpty = true
          · rw [if_pos hemp, if_pos hemp]
            exact ih cs hn
          · rw [if_neg hemp, if_neg hemp]
            have htl : (((c :: cs).drop pat.length).takeWhile (fun ch => !isWS ch)).length
                ≤ ((c :: cs).drop pat.length).length := takeWhile_length_le _ _
            have hdrop2 : ((c :: (cs ++ w :: ys)).drop pat.length).drop
                (((c :: cs).drop pat.length).takeWhile (fun ch => !isWS ch)).length
                = ((c :: cs).drop pat.length).drop
                    (((c :: cs).drop pat.length).takeWhile (fun ch => !isWS ch)).length
                  ++ w :: ys := by
              rw [hdrop]
              exact List.drop_append_of_le_length htl
            have hdl : (((c :: cs).drop pat.length).drop
                (((c :: cs).drop pat.length).takeWhile (fun ch => !isWS ch)).length).length
                ≤ n := by
              have hpos : 0 < pat.length := List.length_pos.mpr hpat
              simp only [List.length_drop, List.length_cons]
              omega
            rw [hdrop2, ih _ hdl]
            simp
        · rw [if_neg (by rw [← List.cons_append, hsep]; exact h), if_neg h]
          exact ih cs hn
  exact key xs.length xs le_rfl

/-! ### Inserting one whitespace-separated token into a record -/

theorem isWS_space : isWS ' ' = true := by decide

theorem sep_not_mem {pat : Str} (hws : ∀ c ∈ pat, isWS c = false) {w : Char}
    (hwws : isWS w = true) : w ∉ pat := by
  intro hmem
  rw [hws w hmem] at hwws
  exact Bool.false_ne_true hwws

theorem countOccur_ins {pat : Str} (hpat : pat ≠ [])
    (hws : ∀ c ∈ pat, isWS c = false) (pre post tok : Str) (hpost : wsHeaded post) :
    countOccur pat (pre ++ ' ' :: (tok ++ post))
      = countOccur pat (pre ++ post) + countOccur pat tok := by
  have hsp : ' ' ∉ pat := sep_not_mem hws isWS_space
  rcases hpost with h | ⟨w, rest, hpost, hw⟩
  · subst h
    rw [List.append_nil, countOccur_sep hpat hsp pre tok, List.append_nil]
  · subst hpost
    have hwp : w ∉ pat := sep_not_mem hws hw
    rw [countOccur_sep hpat hsp pre (tok ++ w :: rest),
      countOccur_sep hpat hwp tok rest, countOccur_sep hpat hwp pre rest]
    omega

theorem countWord_ins {pat : Str} (hpat : pat ≠ [])
    (hws : ∀ c ∈ pat, isWS c = false) (pre post tok : Str) (hpost : wsHeaded post) :
    countWord pat (pre ++ ' ' :: (tok ++ post))
      = countWord pat (pre ++ post) + countWord pat tok := by
  have hsp : ' ' ∉ pat := sep_not_mem hws isWS_space
  have hspw : isWordChar ' ' = false := by decide
  have hspace : ∀ s, countWordP pat (some ' ') s = countWordP pat none s := by
    intro s
    exact countWordP_prev hpat (by simp [nonWordB, hspw]) s
  rcases hpost with h | ⟨w, rest, hpost, hw⟩
  · subst h
    unfold countWord
    rw [List.append_nil, countWordP_sep hpat hsp hspw pre tok none, hspace,
      List.append_nil]
  · subst hpost
    have hwp : w ∉ pat := sep_not_mem hws hw
    have hwrd : isWordChar w = false := isWS_not_word hw
    unfold countWord
    rw [countWordP_sep hpat hsp hspw pre (tok ++ w :: rest) none,
      countWordP_sep hpat hwp hwrd tok rest (some ' '), hspace,
      countWordP_sep hpat hwp hwrd pre rest none]
    omega

theorem scanTok_ins {pat : Str} (hpat : pat ≠ [])
    (hws : ∀ c ∈ pat, isWS c = false) (pre post tok : Str) (hpost : wsHeaded post)
    (htok : scanTok pat tok = []) :
    scanTok pat (pre ++ ' ' :: (tok ++ post)) = scanTok pat (pre ++ post) := by
  have hsp : ' ' ∉ pat := sep_not_mem hws isWS_space
  rcases hpost with h | ⟨w, rest, hpost, hw⟩
  · subst h
    rw [List.append_nil, scanTok_sep hpat isWS_space hsp pre tok, htok,
      List.append_nil, List.append_nil]
  · subst hpost
    have hwp : w ∉ pat := sep_not_mem hws hw
    rw [scanTok_sep hpat isWS_space hsp pre (tok ++ w :: rest),
      scanTok_sep hpat hw hwp tok rest, htok, List.nil_append,
      scanTok_sep hpat hw hwp pre rest]

theorem incPat_ne_nil : incPat ≠ [] := by decide
theorem incPat_no_ws : ∀ c ∈ incPat, isWS c = false := by decide
theorem redPat_ne_nil : redPat ≠ [] := by decide
theorem redPat_no_ws : ∀ c ∈ redPat, isWS c = false := by decide
theorem aPat_ne_nil : aPat ≠ [] := by decide
theorem aPat_no_ws : ∀ c ∈ aPat, isWS c = false := by decide
theorem mxPat_ne_nil : mxPat ≠ [] := by decide
theorem mxPat_no_ws : ∀ c ∈ mxPat, isWS c = false := by decide
theorem ptrPat_ne_nil : ptrPat ≠ [] := by decide
theorem ptrPat_no_ws : ∀ c ∈ ptrPat, isWS c = false := by decide
theorem existsPat_ne_nil : existsPat ≠ [] := by decide
theorem existsPat_no_ws : ∀ c ∈ existsPat, isWS c = false := by decide

/-- Inserting a whole whitespace-separated token that contains no
`include:` match adds exactly its own direct cost and leaves the sequence
of include domains unchanged. -/
theorem directCost_ins (pre post tok : Str) (hpost : wsHeaded post)
    (hinc : scanTok incPat tok = []) :
    directCost (pre ++ ' ' :: (tok ++ post))
        = directCost (pre ++ post) + directCost tok
      ∧ includeDomains (pre ++ ' ' :: (tok ++ post)) = includeDomains (pre ++ post) := by
  have hscan : scanTok incPat (pre ++ ' ' :: (tok ++ post)) = scanTok incPat (pre ++ post) :=
    scanTok_ins incPat_ne_nil incPat_no_ws pre post tok hpost hinc
  constructor
  · unfold directCost
    rw [countOccur_ins redPat_ne_nil redPat_no_ws pre post tok hpost,
      countWord_ins aPat_ne_nil aPat_no_ws pre post tok hpost,
      countWord_ins mxPat_ne_nil mxPat_no_ws pre post tok hpost,
      countWord_ins ptrPat_ne_nil ptrPat_no_ws pre post tok hpost,
      countOccur_ins existsPat_ne_nil existsPat_no_ws pre post tok hpost]
    unfold includeMatches
    rw [hscan, hinc]
    simp only [List.map_nil, List.length_nil, List.length_map]
    omega
  · unfold includeDomains includeMatches
    rw [hscan]

/-- `countLookupsFuel` consults the record only through `directCost` and
`includeDomains`, so inserting such a token adds its direct cost to the
count (at nonzero fuel) and does not change the traversal. -/
theorem countLookupsFuel_ins (dns : DNS) (pre post tok : Str) (hpost : wsHeaded post)
    (hinc : scanTok incPat tok = []) (fuel : Nat) (v : List Str) (hfuel : fuel ≠ 0) :
    countLookupsFuel dns fuel (pre ++ ' ' :: (tok ++ post)) v
      = ((countLookupsFuel dns fuel (pre ++ post) v).1 + directCost tok,
         (countLookupsFuel dns fuel (pre ++ post) v).2) := by
  obtain ⟨n, rfl⟩ : ∃ n, fuel = n + 1 := by
    cases fuel with
    | zero => exact absurd rfl hfuel
    | succ n => exact ⟨n, rfl⟩
  obtain ⟨hcost, hdom⟩ := directCost_ins pre post tok hpost hinc
  simp only [countLookupsFuel, hcost, hdom, Prod.mk.injEq]
  exact ⟨by omega, trivial⟩

/-- Same statement through the `depth` interface. -/
theorem countLookups_ins (dns : DNS) (pre post tok : Str) (hpost : wsHeaded post)
    (hinc : scanTok incPat tok = []) (v : List Str) (depth : Nat) (hd : depth ≤ 10) :
    countLookups dns (pre ++ ' ' :: (tok ++ post)) v depth
      = ((countLookups dns (pre ++ post) v depth).1 + directCost tok,
         (countLookups dns (pre ++ post) v depth).2) := by
  unfold countLookups
  exact countLookupsFuel_ins dns pre post tok hpost hinc _ v (by omega)

/-! ### Scans that cannot match: a pattern character is absent -/

theorem countOccur_zero {pat : Str} (hpat : pat ≠ []) {x : Char} (hx : x ∈ pat) :
    ∀ {l : Str}, x ∉ l → countOccur pat l = 0 := by
  intro l
  induction l with
  | nil => intro _; simp [countOccur, countOccurF_nil]
  | cons c cs ih =>
    intro hl
    have hpre : ¬isPre pat (c :: cs) = true := fun h => hl (isPre_mem h x hx)
    rw [countOccur_cons hpat, if_neg hpre]
    exact ih (fun h => hl (List.mem_cons_of_mem _ h))

theorem countWordP_zero {pat : Str} (hpat : pat ≠ []) {x : Char} (hx : x ∈ pat) :
    ∀ {l : Str} (prev : Option Char), x ∉ l → countWordP pat prev l = 0 := by
  intro l
  induction l with
  | nil => intro _ _; simp [countWordP, countWordF_nil]
  | cons c cs ih =>
    intro prev hl
    have hpre : isPre pat (c :: cs) = false := by
      by_contra h
      exact hl (isPre_mem (Bool.of_not_eq_false h ▸ rfl) x hx)
    rw [countWordP_cons hpat, if_neg (by simp [hpre])]
    exact ih (some c) (fun h => hl (List.mem_cons_of_mem _ h))

theorem scanTok_zero {pat : Str} (hpat : pat ≠ []) {x : Char} (hx : x ∈ pat) :
    ∀ {l : Str}, x ∉ l → scanTok pat l = [] := by
  intro l
  induction l with
  | nil => intro _; simp [scanTok, scanTokF_nil]
  | cons c cs ih =>
    intro hl
    have hpre : ¬isPre pat (c :: cs) = true := fun h => hl (isPre_mem h x hx)
    rw [scanTok_cons hpat, if_neg hpre]
    exact ih (fun h => hl (List.mem_cons_of_mem _ h))

theorem tok_not_mem {alpha addr : Str} (h : ∀ c ∈ addr, c ∈ alpha)
    {pfx : Str} {x : Char} (hx1 : x ∉ pfx) (hx2 : x ∉ alpha) : x ∉ pfx ++ addr := by
  intro hmem
  rcases List.mem_append.mp hmem with h1 | h2
  · exact hx1 h1
  · exact hx2 (h x h2)

/-- An `ip4:` token over the IPv4 address alphabet triggers none of the
counted patterns. -/
theorem ip4_tok_flat {addr : Str} (h : ∀ c ∈ addr, c ∈ ip4Chars) :
    directCost (ip4Pat ++ addr) = 0 ∧ scanTok incPat (ip4Pat ++ addr) = [] := by
  have hscan : scanTok incPat (ip4Pat ++ addr) = [] :=
    scanTok_zero incPat_ne_nil (x := 'n') (by decide)
      (tok_not_mem h (by decide) (by decide))
  refine ⟨?_, hscan⟩
  unfold directCost includeMatches countWord
  rw [hscan,
    countOccur_zero redPat_ne_nil (x := '=') (by decide)
      (tok_not_mem h (by decide) (by decide)),
    countWordP_zero aPat_ne_nil (x := 'a') (by decide) none
      (tok_not_mem h (by decide) (by decide)),
    countWordP_zero mxPat_ne_nil (x := 'm') (by decide) none
      (tok_not_mem h (by decide) (by decide)),
    countWordP_zero ptrPat_ne_nil (x := 't') (by decide) none
      (tok_not_mem h (by decide) (by decide)),
    countOccur_zero existsPat_ne_nil (x := 'x') (by decide)
      (tok_not_mem h (by decide) (by decide))]
  simp

/-- An `ip6:` token over the IPv6 address alphabet triggers none of the
counted patterns, except possibly the bare-`a` word pattern, which is
excluded by hypothesis. -/
theorem ip6_tok_flat {addr : Str} (h : ∀ c ∈ addr, c ∈ ip6Chars)
    (ha : countWord aPat (ip6Pat ++ addr) = 0) :
    directCost (ip6Pat ++ addr) = 0 ∧ scanTok incPat (ip6Pat ++ addr) = [] := by
  have hscan : scanTok incPat (ip6Pat ++ addr) = [] :=
    scanTok_zero incPat_ne_nil (x := 'n') (by decide)
      (tok_not_mem h (by decide) (by decide))
  refine ⟨?_, hscan⟩
  unfold directCost includeMatches
  rw [hscan, ha,
    countOccur_zero redPat_ne_nil (x := '=') (by decide)
      (tok_not_mem h (by decide) (by decide)),
    show countWord mxPat (ip6Pat ++ addr) = 0 from
      countWordP_zero mxPat_ne_nil (x := 'm') (by decide) none
        (tok_not_mem h (by decide) (by decide)),
    show countWord ptrPat (ip6Pat ++ addr) = 0 from
      countWordP_zero ptrPat_ne_nil (x := 't') (by decide) none
        (tok_not_mem h (by decide) (by decide)),
    countOccur_zero existsPat_ne_nil (x := 'x') (by decide)
      (tok_not_mem h (by decide) (by decide))]
  simp

/-! ### Records with zero direct cost stop the traversal -/

theorem includeDomains_of_zero_cost {r : Str} (h : directCost r = 0) :
    includeDomains r = [] := by
  unfold directCost at h
  have hlen : (includeMatches r).length = 0 := by omega
  unfold includeDomains
  rw [List.length_eq_zero.mp hlen]
  rfl

theorem countLookupsFuel_flat (dns : DNS) (fuel : Nat) (r : Str) (v : List Str)
    (h0 : directCost r = 0) : countLookupsFuel dns fuel r v = (0, v) := by
  cases fuel with
  | zero => rfl
  | succ n => simp [countLookupsFuel, includeDomains_of_zero_cost h0, loopWith, h0]

theorem loopWith_flat (dns : DNS) (n : Nat) :
    ∀ ds v, (∀ d ∈ ds, headDirectCost (dns d) = 0) →
      loopWith (fun r v => countLookupsFuel dns n r v) dns ds v
        = (0, (loopWith (fun r v => countLookupsFuel dns n r v) dns ds v).2) := by
  intro ds
  induction ds with
  | nil => intro v _; rfl
  | cons d ds ih =>
    intro v h
    have hd := h d (List.mem_cons_self _ _)
    have hds : ∀ d' ∈ ds, headDirectCost (dns d') = 0 :=
      fun d' hd' => h d' (List.mem_cons_of_mem _ hd')
    by_cases hv : d ∈ v
    · simp only [loopWith, if_pos hv]
      exact ih v hds
    · cases hdns : dns d with
      | none =>
        simp only [loopWith, if_neg hv, hdns]
        exact ih (v ++ [d]) hds
      | some rs =>
        cases rs with
        | nil =>
          simp only [loopWith, if_neg hv, hdns]
          exact ih (v ++ [d]) hds
        | cons r rest =>
          have hcost : directCost r = 0 := by
            have := hd
            rw [hdns] at this
            exact this
          simp only [loopWith, if_neg hv, hdns,
            countLookupsFuel_flat dns n r (v ++ [d]) hcost]
          have := ih (v ++ [d]) hds
          rw [this]
          simp

theorem countLookupsFuel_zero (dns : DNS) (r : Str) (v : List Str) :
    countLookupsFuel dns 0 r v = (0, v) := rfl

theorem countLookupsFuel_succ (dns : DNS) (n : Nat) (r : Str) (v : List Str) :
    countLookupsFuel dns (n + 1) r v
      = (directCost r
           + (loopWith (fun r v => countLookupsFuel dns n r v) dns (includeDomains r) v).1,
         (loopWith (fun r v => countLookupsFuel dns n r v) dns (includeDomains r) v).2) := rfl

theorem countLookups_flat (dns : DNS) (r : Str)
    (h : ∀ d ∈ includeDomains r, headDirectCost (dns d) = 0) :
    (countLookups dns r [] 0).1 = directCost r := by
  show (countLookupsFuel dns 11 r []).1 = directCost r
  rw [countLookupsFuel_succ dns 10 r [], loopWith_flat dns 10 (includeDomains r) [] h]
  simp

/-! ### The visited set only grows, and never acquires duplicates -/

theorem loopWith_extends {step : Str → List Str → Nat × List Str} (dns : DNS)
    (hstep : ∀ r v, ∃ e, (step r v).2 = v ++ e) :
    ∀ ds v, ∃ e, (loopWith step dns ds v).2 = v ++ e := by
  intro ds
  induction ds with
  | nil => intro v; exact ⟨[], by simp [loopWith]⟩
  | cons d ds ih =>
    intro v
    by_cases hv : d ∈ v
    · simpa only [loopWith, if_pos hv] using ih v
    · cases hdns : dns d with
      | none =>
        obtain ⟨e, he⟩ := ih (v ++ [d])
        exact ⟨[d] ++ e, by simp only [loopWith, if_neg hv, hdns, he, List.append_assoc]⟩
      | some rs =>
        cases rs with
        | nil =>
          obtain ⟨e, he⟩ := ih (v ++ [d])
          exact ⟨[d] ++ e, by simp only [loopWith, if_neg hv, hdns, he, List.append_assoc]⟩
        | cons r rest =>
          obtain ⟨e1, he1⟩ := hstep r (v ++ [d])
          obtain ⟨e2, he2⟩ := ih (step r (v ++ [d])).2
          refine ⟨[d] ++ e1 ++ e2, ?_⟩
          simp only [loopWith, if_neg hv, hdns]
          rw [he2, he1]
          simp [List.append_assoc]

theorem countLookupsFuel_extends (dns : DNS) :
    ∀ fuel r v, ∃ e, (countLookupsFuel dns fuel r v).2 = v ++ e := by
  intro fuel
  induction fuel with
  | zero => intro r v; exact ⟨[], by simp [countLookupsFuel]⟩
  | succ n ih =>
    intro r v
    simp only [countLookupsFuel]
    exact loopWith_extends dns (fun r v => ih r v) _ v

theorem loopWith_mem {step : Str → List Str → Nat × List Str} (dns : DNS)
    (hstep : ∀ r v, ∃ e, (step r v).2 = v ++ e) :
    ∀ ds v d, d ∈ ds ∨ d ∈ v → d ∈ (loopWith step dns ds v).2 := by
  intro ds
  induction ds with
  | nil =>
    intro v d hd
    rcases hd with hd | hd
    · simp at hd
    · simpa [loopWith] using hd
  | cons d' ds ih =>
    intro v d hd
    by_cases hv : d' ∈ v
    · simp only [loopWith, if_pos hv]
      rcases hd with hd | hd
      · rcases List.mem_cons.mp hd with hd | hd
        · exact ih v d (Or.inr (hd ▸ hv))
        · exact ih v d (Or.inl hd)
      · exact ih v d (Or.inr hd)
    · cases hdns : dns d' with
      | none =>
        simp only [loopWith, if_neg hv, hdns]
        rcases hd with hd | hd
        · rcases List.mem_cons.mp hd with hd | hd
          · exact ih _ d (Or.inr (by simp [hd]))
          · exact ih _ d (Or.inl hd)
        · exact ih _ d (Or.inr (by simp [hd]))
      | some rs =>
        cases rs with
        | nil =>
          simp only [loopWith, if_neg hv, hdns]
          rcases hd with hd | hd
          · rcases List.mem_cons.mp hd with hd | hd
            · exact ih _ d (Or.inr (by simp [hd]))
            · exact ih _ d (Or.inl hd)
          · exact ih _ d (Or.inr (by simp [hd]))
        | cons r rest =>
          simp only [loopWith, if_neg hv, hdns]
          obtain ⟨e1, he1⟩ := hstep r (v ++ [d'])
          rcases hd with hd | hd
          · rcases List.mem_cons.mp hd with hd | hd
            · refine ih _ d (Or.inr ?_)
              rw [he1]
              exact List.mem_append.mpr (Or.inl (by simp [hd]))
            · exact ih _ d (Or.inl hd)
          · refine ih _ d (Or.inr ?_)
            rw [he1]
            exact List.mem_append.mpr (Or.inl (by simp [hd]))

theorem nodup_append_singleton {v : List Str} {d : Str} (hnd : v.Nodup)
    (hv : d ∉ v) : (v ++ [d]).Nodup := by
  induction v with
  | nil => simp
  | cons a v ih =>
    have ha : a ∉ v := (List.nodup_cons.mp hnd).1
    have had : a ≠ d := fun h => hv (h ▸ List.mem_cons_self _ _)
    refine List.nodup_cons.mpr ⟨?_, ih (List.nodup_cons.mp hnd).2
      (fun h => hv (List.mem_cons_of_mem _ h))⟩
    intro hmem
    rcases List.mem_append.mp hmem with h | h
    · exact ha h
    · exact had (by simpa using h)

theorem loopWith_nodup {step : Str → List Str → Nat × List Str} (dns : DNS)
    (hstep : ∀ r v, v.Nodup → (step r v).2.Nodup) :
    ∀ ds v, v.Nodup → (loopWith step dns ds v).2.Nodup := by
  intro ds
  induction ds with
  | nil => intro v hv; simpa [loopWith] using hv
  | cons d ds ih =>
    intro v hnd
    by_cases hv : d ∈ v
    · simp only [loopWith, if_pos hv]
      exact ih v hnd
    · have hnd' : (v ++ [d]).Nodup := nodup_append_singleton hnd hv
      cases hdns : dns d with
      | none =>
        simp only [loopWith, if_neg hv, hdns]
        exact ih _ hnd'
      | some rs =>
        cases rs with
        | nil =>
          simp only [loopWith, if_neg hv, hdns]
          exact ih _ hnd'
        | cons r rest =>
          simp only [loopWith, if_neg hv, hdns]
          exact ih _ (hstep r _ hnd')

theorem countLookupsFuel_nodup (dns : DNS) :
    ∀ fuel r v, v.Nodup → ((countLookupsFuel dns fuel r v).2).Nodup := by
  intro fuel
  induction fuel with
  | zero => intro r v hv; simpa [countLookupsFuel] using hv
  | succ n ih =>
    intro r v hv
    simp only [countLookupsFuel]
    exact loopWith_nodup dns (fun r v => ih r v) _ v hv

/-! ### The result only depends on the resolver at include-reachable domains -/

theorem countLookupsFuel_dns_skip (dns₁ dns₂ : DNS) (z : Str)
    (hag : ∀ d, d ≠ z → dns₁ d = dns₂ d)
    (h1 : dns₁ z = none ∨ dns₁ z = some [])
    (h2 : dns₂ z = none ∨ dns₂ z = some []) :
    ∀ fuel r v, countLookupsFuel dns₁ fuel r v = countLookupsFuel dns₂ fuel r v := by
  intro fuel
  induction fuel with
  | zero => intro r v; rfl
  | succ n ih =>
    intro r v
    have hloop : ∀ ds v,
        loopWith (fun r v => countLookupsFuel dns₁ n r v) dns₁ ds v
          = loopWith (fun r v => countLookupsFuel dns₂ n r v) dns₂ ds v := by
      intro ds
      induction ds with
      | nil => intro v; rfl
      | cons d ds ihl =>
        intro v
        by_cases hv : d ∈ v
        · simp only [loopWith, if_pos hv]
          exact ihl v
        · by_cases hz : d = z
          · subst hz
            rcases h1 with h1 | h1 <;> rcases h2 with h2 | h2 <;>
              simp only [loopWith, if_neg hv, h1, h2] <;> exact ihl (v ++ [d])
          · have hd : dns₁ d = dns₂ d := hag d hz
            cases hdns : dns₂ d with
            | none =>
              simp only [loopWith, if_neg hv, hd, hdns]
              exact ihl (v ++ [d])
            | some rs =>
              cases rs with
              | nil =>
                simp only [loopWith, if_neg hv, hd, hdns]
                exact ihl (v ++ [d])
              | cons r rest =>
                simp only [loopWith, if_neg hv, hd, hdns, ih r (v ++ [d])]
                rw [ihl]
    simp only [countLookupsFuel, hloop]

theorem countLookupsFuel_dns_offline (dns₁ dns₂ : DNS) (z : Str)
    (hag : ∀ d, d ≠ z → dns₁ d = dns₂ d)
    (hrange : ∀ d r rs, d ≠ z → dns₁ d = some (r :: rs) → z ∉ includeDomains r) :
    ∀ fuel r v, z ∉ includeDomains r →
      countLookupsFuel dns₁ fuel r v = countLookupsFuel dns₂ fuel r v := by
  intro fuel
  induction fuel with
  | zero => intro r v _; rfl
  | succ n ih =>
    intro r v hz
    have hloop : ∀ ds, (∀ d ∈ ds, d ≠ z) → ∀ v,
        loopWith (fun r v => countLookupsFuel dns₁ n r v) dns₁ ds v
          = loopWith (fun r v => countLookupsFuel dns₂ n r v) dns₂ ds v := by
      intro ds
      induction ds with
      | nil => intro _ v; rfl
      | cons d ds ihl =>
        intro hds v
        have hdz : d ≠ z := hds d (List.mem_cons_self _ _)
        have hds' : ∀ d' ∈ ds, d' ≠ z := fun d' h => hds d' (List.mem_cons_of_mem _ h)
        by_cases hv : d ∈ v
        · simp only [loopWith, if_pos hv]
          exact ihl hds' v
        · have hd : dns₁ d = dns₂ d := hag d hdz
          cases hdns : dns₁ d with
          | none =>
            simp only [loopWith, if_neg hv, hdns, hd ▸ hdns]
            exact ihl hds' (v ++ [d])
          | some rs =>
            cases rs with
            | nil =>
              simp only [loopWith, if_neg hv, hdns, hd ▸ hdns]
              exact ihl hds' (v ++ [d])
            | cons r rest =>
              have hzr : z ∉ includeDomains r := hrange d r rest hdz hdns
              simp only [loopWith, if_neg hv, hdns, hd ▸ hdns, ih r (v ++ [d]) hzr]
              rw [ihl hds']
    have hdz : ∀ d ∈ includeDomains r, d ≠ z := fun d hd he => hz (he ▸ hd)
    simp only [countLookupsFuel, hloop (includeDomains r) hdz v]

/-! ### Stripping the `include:` prefix recovers the captured domain -/

theorem replaceFirst_pre {pat : Str} (hpat : pat ≠ []) (x : Str) :
    replaceFirst pat (pat ++ x) = x := by
  cases pat with
  | nil => exact absurd rfl hpat
  | cons p ps =>
    have hpre : isPre (p :: ps) ((p :: ps) ++ x) = true := isPre_append_self _ _
    rw [List.cons_append, replaceFirst,
      if_pos (by rw [← List.cons_append]; exact hpre), ← List.cons_append]
    exact List.drop_left _ _

theorem includeDomains_eq_scan (r : Str) : includeDomains r = scanTok incPat r := by
  unfold includeDomains includeMatches
  rw [List.map_map]
  have h : ∀ d ∈ scanTok incPat r,
      (replaceFirst incPat ∘ fun d => incPat ++ d) d = id d :=
    fun d _ => replaceFirst_pre incPat_ne_nil d
  rw [List.map_congr_left h, List.map_id]

theorem map_type_replicate (c : Str) (l : List Str) :
    ((l.map (fun d => ({ type := c, domain := d } : IncludeEdge))).map IncludeEdge.type)
      = List.replicate l.length c := by
  induction l with
  | nil => rfl
  | cons d ds ih => simp [List.replicate_succ, ih]

theorem map_domain_id (c : Str) (l : List Str) :
    ((l.map (fun d => ({ type := c, domain := d } : IncludeEdge))).map
      IncludeEdge.domain) = l := by
  induction l with
  | nil => rfl
  | cons d ds ih => simp [ih]

theorem extract_filter_inc (r : Str) :
    (extractIncludes r).filter (fun e => e.type = incTypeStr)
      = (scanTok incPat r).map (fun d => { type := incTypeStr, domain := d }) := by
  unfold extractIncludes
  rw [List.filter_append]
  have h1 : ∀ l : List Str,
      (l.map (fun d => ({ type := incTypeStr, domain := d } : IncludeEdge))).filter
        (fun e => e.type = incTypeStr)
      = l.map (fun d => { type := incTypeStr, domain := d }) := by
    intro l
    induction l with
    | nil => rfl
    | cons d ds ih => simp [List.filter_cons, ih]
  have h2 : ∀ l : List Str,
      (l.map (fun d => ({ type := redTypeStr, domain := d } : IncludeEdge))).filter
        (fun e => e.type = incTypeStr) = [] := by
    intro l
    induction l with
    | nil => rfl
    | cons d ds ih =>
      simp [List.filter_cons, ih, show redTypeStr ≠ incTypeStr from by decide]
  rw [h1, h2, List.append_nil]

/-! ### The claims -/

/-- C1 counterexample: in `recFlatC` the single included domain resolves to
a record with no further includes, yet `countLookups` returns 2, while the
claim predicts 1 (one `include:` token, zero other counted tokens in the
root): the `mx` of the nested record is also counted. -/
theorem countLookups_flat_sum_cex :
    includeDomains ("v=spf1 mx ~all".toList) = []
      ∧ (countLookups dnsFlatC recFlatC [] 0).1 = 2
      ∧ (includeMatches recFlatC).length
          + (countOccur redPat recFlatC + countWord aPat recFlatC
            + countWord mxPat recFlatC + countWord ptrPat recFlatC
            + countOccur existsPat recFlatC) = 1 :=
  ⟨by decide, by decide, by decide⟩

/-- C1 (amended): for every record whose `include:` domains each resolve —
when they resolve to at least one record at all — to a first record of zero
direct cost (no further includes and no `redirect=`/`a`/`mx`/`ptr`/`exists:`
tokens either), `countLookups` with fresh visited set and depth 0 returns
exactly the number N of `include:` matches plus the number of `a`, `mx`,
`ptr`, `exists` and `redirect=` pattern matches of the root record. -/
theorem countLookups_flat_sum (dns : DNS) (rec : Str)
    (h : ∀ d ∈ includeDomains rec, headDirectCost (dns d) = 0) :
    (countLookups dns rec [] 0).1
      = (includeMatches rec).length
          + (countOccur redPat rec + countWord aPat rec + countWord mxPat rec
            + countWord ptrPat rec + countOccur existsPat rec) := by
  rw [countLookups_flat dns rec h]
  unfold directCost
  omega

theorem countLookups_flat_sum_witness :
    (countLookups dnsFlatW recFlatW [] 0).1
      = (includeMatches recFlatW).length
          + (countOccur redPat recFlatW + countWord aPat recFlatW
            + countWord mxPat recFlatW + countWord ptrPat recFlatW
            + countOccur existsPat recFlatW) :=
  countLookups_flat_sum dnsFlatW recFlatW (by decide)

/-- C2 counterexample: a record whose only mechanisms besides `-all` are a
single `ip6:` token carrying the valid address `2001:db8::a` yields count 1
(the isolated hex group `a` is matched by the bare-`a` word pattern), while
the same record without the token yields 0 — so an `ip6:` token can
contribute to the count. -/
theorem ip6_isolated_a_cex :
    (countLookups dnsNone ("v=spf1 ip6:2001:db8::a -all".toList) [] 0).1 = 1
      ∧ (countLookups dnsNone ("v=spf1 -all".toList) [] 0).1 = 0 :=
  ⟨by decide, by decide⟩

/-- C2 (amended): inserting an `ip4:` token whose address consists of
digits, dots and slashes between whitespace-separated tokens of any record
never changes the result of `countLookups` (count and visited set), for
every resolver, visited set, depth and number of insertions; the same holds
for an `ip6:` token over the lowercase-hex address alphabet provided the
token text contains no isolated `a` (no bare-`a` word match). -/
theorem ip_tokens_contribute_zero (dns : DNS) (v : List Str) (depth : Nat)
    (pre post addr : Str) (hpost : wsHeaded post) :
    ((∀ c ∈ addr, c ∈ ip4Chars) →
        countLookups dns (pre ++ ' ' :: ((ip4Pat ++ addr) ++ post)) v depth
          = countLookups dns (pre ++ post) v depth)
      ∧ ((∀ c ∈ addr, c ∈ ip6Chars) → countWord aPat (ip6Pat ++ addr) = 0 →
        countLookups dns (pre ++ ' ' :: ((ip6Pat ++ addr) ++ post)) v depth
          = countLookups dns (pre ++ post) v depth) := by
  have hdeep : ¬depth ≤ 10 →
      ∀ r : Str, countLookups dns r v depth = countLookups dns (pre ++ post) v depth := by
    intro hd r
    unfold countLookups
    rw [show 11 - depth = 0 from by omega, countLookupsFuel_zero, countLookupsFuel_zero]
  constructor
  · intro h4
    obtain ⟨hcost, hscan⟩ := ip4_tok_flat h4
    by_cases hd : depth ≤ 10
    · rw [countLookups_ins dns pre post (ip4Pat ++ addr) hpost hscan v depth hd, hcost]
      simp
    · exact hdeep hd _
  · intro h6 ha
    obtain ⟨hcost, hscan⟩ := ip6_tok_flat h6 ha
    by_cases hd : depth ≤ 10
    · rw [countLookups_ins dns pre post (ip6Pat ++ addr) hpost hscan v depth hd, hcost]
      simp
    · exact hdeep hd _

theorem ip_tokens_contribute_zero_witness :
    countLookups dnsNone
        ("v=spf1".toList ++ ' ' :: ((ip4Pat ++ "1.2.3.0/24".toList) ++ " -all".toList)) [] 0
      = countLookups dnsNone ("v=spf1".toList ++ " -all".toList) [] 0
    ∧ countLookups dnsNone
        ("v=spf1".toList ++ ' ' :: ((ip6Pat ++ "2001:db8::1".toList) ++ " -all".toList)) [] 0
      = countLookups dnsNone ("v=spf1".toList ++ " -all".toList) [] 0 := by
  have hpost : wsHeaded (" -all".toList) :=
    Or.inr ⟨' ', "-all".toList, by decide, by decide⟩
  exact ⟨(ip_tokens_contribute_zero dnsNone [] 0 ("v=spf1".toList) (" -all".toList)
      ("1.2.3.0/24".toList) hpost).1 (by decide),
    (ip_tokens_contribute_zero dnsNone [] 0 ("v=spf1".toList) (" -all".toList)
      ("2001:db8::1".toList) hpost).2 (by decide) (by decide)⟩

theorem count_one_of_nodup_mem {l : List Str} {a : Str} (hnd : l.Nodup)
    (hmem : a ∈ l) : l.count a = 1 := by
  induction l with
  | nil => simp at hmem
  | cons b bs ih =>
    rcases List.mem_cons.mp hmem with h | h
    · subst h
      have hnb : a ∉ bs := (List.nodup_cons.mp hnd).1
      rw [List.count_cons_self, List.count_eq_zero.mpr hnb]
    · have hb : b ≠ a := fun he => (List.nodup_cons.mp hnd).1 (he ▸ h)
      rw [List.count_cons_of_ne (Ne.symm hb)]
      exact ih (List.nodup_cons.mp hnd).2 h

/-- C3: whenever domain B resolves to at least one record and the records of
A and B include each other, `countLookups` on the record of A with fresh
visited set and depth 0 terminates — it is a total function and the witness
evaluates it — and B is resolved and added to the visited set exactly once:
it occurs exactly once in the final visited set. -/
theorem cycle_domain_counted_once (dns : DNS) (domA domB recA recB : Str)
    (rsB : List Str) (hB : dns domB = some (recB :: rsB))
    (hAB : domB ∈ includeDomains recA) (hBA : domA ∈ includeDomains recB) :
    ((countLookups dns recA [] 0).2).count domB = 1 := by
  have hmem : domB ∈ (countLookups dns recA [] 0).2 := by
    show domB ∈ (countLookupsFuel dns 11 recA []).2
    rw [countLookupsFuel_succ]
    exact loopWith_mem dns (fun r v => countLookupsFuel_extends dns 10 r v)
      (includeDomains recA) [] domB (Or.inl hAB)
  have hnd : ((countLookups dns recA [] 0).2).Nodup :=
    countLookupsFuel_nodup dns 11 recA [] List.nodup_nil
  exact count_one_of_nodup_mem hnd hmem

theorem cycle_domain_counted_once_witness :
    ((countLookups dnsCyc recCycA [] 0).2).count ("b.example".toList) = 1 :=
  cycle_domain_counted_once dnsCyc ("a.example".toList) ("b.example".toList)
    recCycA recCycB [] (by decide) (by decide) (by decide)

/-- C4: for every resolver, record and visited set, `countLookups` at depth
strictly greater than 10 returns 0 immediately with the visited set
unchanged, independently of the resolver; and on the concrete chain of 15
nested single-include records the traversal terminates with count 11 — the
root plus the ten records reached at depths 1..10 — so records beyond depth
10 contribute nothing. -/
theorem depth_bound_returns_zero :
    (∀ (dns : DNS) (rec : Str) (visited : List Str) (depth : Nat), depth > 10 →
        countLookups dns rec visited depth = (0, visited))
      ∧ (countLookups dnsChain (chainRec 1) [] 0).1 = 11 := by
  refine ⟨?_, by decide⟩
  intro dns rec visited depth h
  unfold countLookups
  rw [show 11 - depth = 0 from by omega, countLookupsFuel_zero]

theorem depth_bound_returns_zero_witness :
    countLookups dnsNone ("v=spf1 include:a.com -all".toList) ["x".toList] 11
      = (0, ["x".toList]) :=
  depth_bound_returns_zero.1 dnsNone ("v=spf1 include:a.com -all".toList)
    ["x".toList] 11 (by decide)

/-- C5: (i) inserting a `redirect=` token whose text triggers exactly one
counted pattern — its own `redirect=` — between the whitespace-separated
tokens of a record adds exactly one unit of direct cost to `countLookups`
at every depth within the bound, for every resolver; (ii) the result of
`countLookups` is invariant under arbitrary changes of the resolver at any
domain `z` that is not named by an `include:` token of the root record or of
any record the resolver returns: redirect target domains are never resolved
or recursed into, only `include:` domains are followed. -/
theorem redirect_unit_no_recursion :
    (∀ (dns : DNS) (v : List Str) (depth : Nat) (pre post dom : Str),
        depth ≤ 10 → wsHeaded post →
        directCost (redPat ++ dom) = 1 → scanTok incPat (redPat ++ dom) = [] →
        (countLookups dns (pre ++ ' ' :: ((redPat ++ dom) ++ post)) v depth).1
          = (countLookups dns (pre ++ post) v depth).1 + 1)
      ∧ (∀ (dns₁ dns₂ : DNS) (z rec : Str) (v : List Str) (depth : Nat),
        (∀ d, d ≠ z → dns₁ d = dns₂ d) →
        z ∉ includeDomains rec →
        (∀ d r rs, d ≠ z → dns₁ d = some (r :: rs) → z ∉ includeDomains r) →
        countLookups dns₁ rec v depth = countLookups dns₂ rec v depth) := by
  constructor
  · intro dns v depth pre post dom hd hpost hcost hscan
    rw [countLookups_ins dns pre post (redPat ++ dom) hpost hscan v depth hd, hcost]
  · intro dns₁ dns₂ z rec v depth hag hroot hrange
    exact countLookupsFuel_dns_offline dns₁ dns₂ z hag hrange _ rec v hroot

theorem redirect_unit_no_recursion_witness :
    ((countLookups dnsNone
        ("v=spf1".toList ++ ' ' :: ((redPat ++ "b.example".toList) ++ " -all".toList)) [] 0).1
      = (countLookups dnsNone ("v=spf1".toList ++ " -all".toList) [] 0).1 + 1)
    ∧ countLookups dnsNone recRedirW [] 0 = countLookups dnsRedirW recRedirW [] 0 := by
  constructor
  · exact redirect_unit_no_recursion.1 dnsNone [] 0 ("v=spf1".toList) (" -all".toList)
      ("b.example".toList) (by decide)
      (Or.inr ⟨' ', "-all".toList, by decide, by decide⟩) (by decide) (by decide)
  · exact redirect_unit_no_recursion.2 dnsNone dnsRedirW ("r.example".toList) recRedirW
      [] 0
      (fun d hd => by simp only [dnsNone, dnsRedirW]; rw [if_neg hd])
      (by decide)
      (fun d r rs _ h => by simp [dnsNone] at h)

/-- C6: for every record, `extractIncludes` returns the include edges first,
in order of appearance, then the redirect edges in order of appearance (two
independent scans concatenated), and on the spec example it returns exactly
the two-element sequence of the `include` edge for `a.com` followed by the
`redirect` edge for `b.com`. -/
theorem extractIncludes_order :
    (∀ rec : Str,
        (extractIncludes rec).map IncludeEdge.domain
            = scanTok incPat rec ++ scanTok redPat rec
          ∧ (extractIncludes rec).map IncludeEdge.type
            = List.replicate (scanTok incPat rec).length incTypeStr
              ++ List.replicate (scanTok redPat rec).length redTypeStr)
      ∧ extractIncludes ("v=spf1 include:a.com redirect=b.com -all".toList)
          = [{ type := incTypeStr, domain := "a.com".toList },
             { type := redTypeStr, domain := "b.com".toList }] := by
  refine ⟨fun rec => ⟨?_, ?_⟩, by decide⟩
  · unfold extractIncludes
    rw [List.map_append, map_domain_id, map_domain_id]
  · unfold extractIncludes
    rw [List.map_append, map_type_replicate, map_type_replicate]

/-- C7: (i) a resolver failure at a domain `z` (modelled as `none`) behaves
exactly like a successful resolution with zero records there: for all other
inputs equal, `countLookups` returns the same count and visited set, so the
failed branch contributes exactly 0, the remaining includes are processed
identically, and the top-level call cannot fail (it is total); (ii) on a
record whose first include fails to resolve, the count is exactly the one
from the surviving branches. -/
theorem sub_resolution_swallowed :
    (∀ (dns₁ dns₂ : DNS) (z : Str),
        (∀ d, d ≠ z → dns₁ d = dns₂ d) → dns₁ z = none → dns₂ z = some [] →
        ∀ (rec : Str) (v : List Str) (depth : Nat),
          countLookups dns₁ rec v depth = countLookups dns₂ rec v depth)
      ∧ (countLookups dnsSwalA recSwal [] 0).1 = 3 := by
  refine ⟨?_, by decide⟩
  intro dns₁ dns₂ z hag h1 h2 rec v depth
  exact countLookupsFuel_dns_skip dns₁ dns₂ z hag (Or.inl h1) (Or.inr h2) _ rec v

theorem sub_resolution_swallowed_witness :
    countLookups dnsSwalA recSwal [] 0 = countLookups dnsSwalB recSwal [] 0 :=
  sub_resolution_swallowed.1 dnsSwalA dnsSwalB ("bad.example".toList)
    (fun d hd => by simp only [dnsSwalB]; rw [if_neg hd])
    (by decide) (by decide) recSwal [] 0

/-- C8: `fetchSPFRecords` fails exactly on transport failure, non-success
HTTP response, or resolver `Status` different from 0; a delivered response
with `Status` 0 and no `Answer`, or whose TXT answers all fail (after quote
stripping) to begin with `v=spf1`, yields the empty sequence rather than an
error; and every returned string begins with `v=spf1` and the returned
sequence is a subsequence of the quote-stripped answer data in server
response order. -/
theorem fetchSPFRecords_error_and_filter (o : FetchOutcome) :
    ((∃ e, fetchSPFRecords o = .error e) ↔ ∀ resp, o = .success resp → resp.Status ≠ 0)
      ∧ (∀ resp, o = .success resp → resp.Status = 0 → resp.Answer = none →
          fetchSPFRecords o = .ok [])
      ∧ (∀ resp answers, o = .success resp → resp.Status = 0 →
          resp.Answer = some answers →
          (∀ a ∈ answers, a.type = 16 → isPre spfPat (stripQuotes a.data) = false) →
          fetchSPFRecords o = .ok [])
      ∧ (∀ resp answers rs, o = .success resp → resp.Answer = some answers →
          fetchSPFRecords o = .ok rs →
          (∀ r ∈ rs, isPre spfPat r = true)
            ∧ List.Sublist rs (answers.map (fun a => stripQuotes a.data))) := by
  cases o with
  | transportError msg =>
    refine ⟨⟨fun _ resp h => FetchOutcome.noConfusion h, fun _ => ⟨msg, rfl⟩⟩,
      fun resp h => FetchOutcome.noConfusion h,
      fun resp answers h => FetchOutcome.noConfusion h,
      fun resp answers rs h => FetchOutcome.noConfusion h⟩
  | httpError st =>
    refine ⟨⟨fun _ resp h => FetchOutcome.noConfusion h,
      fun _ => ⟨dnsHttpMsg ++ st, rfl⟩⟩,
      fun resp h => FetchOutcome.noConfusion h,
      fun resp answers h => FetchOutcome.noConfusion h,
      fun resp answers rs h => FetchOutcome.noConfusion h⟩
  | success resp =>
    by_cases hs : resp.Status = 0
    · cases hA : resp.Answer with
      | none =>
        have hbody : fetchSPFRecords (.success resp) = .ok [] := by
          simp only [fetchSPFRecords]
          rw [if_neg (by simp [hs]), hA]
        refine ⟨⟨?_, ?_⟩, ?_, ?_, ?_⟩
        · rintro ⟨e, he⟩
          rw [hbody] at he
          exact Except.noConfusion he
        · intro h
          exact absurd hs (h resp rfl)
        · intro resp2 h _ _
          cases h
          exact hbody
        · intro resp2 answers h _ hA2 _
          cases h
          rw [hA] at hA2
          exact Option.noConfusion hA2
        · intro resp2 answers rs h hA2 _
          cases h
          rw [hA] at hA2
          exact Option.noConfusion hA2
      | some answers0 =>
        have hbody : fetchSPFRecords (.success resp)
            = .ok (((answers0.filter (fun a => a.type = 16)).map
                (fun a => stripQuotes a.data)).filter (fun r => isPre spfPat r)) := by
          simp only [fetchSPFRecords]
          rw [if_neg (by simp [hs]), hA]
        refine ⟨⟨?_, ?_⟩, ?_, ?_, ?_⟩
        · rintro ⟨e, he⟩
          rw [hbody] at he
          exact Except.noConfusion he
        · intro h
          exact absurd hs (h resp rfl)
        · intro resp2 h _ hA2
          cases h
          rw [hA] at hA2
          exact Option.noConfusion hA2
        · intro resp2 answers h _ hA2 hall
          cases h
          rw [hA] at hA2
          cases hA2
          rw [hbody]
          congr 1
          rw [List.filter_eq_nil_iff]
          intro r hr
          obtain ⟨a, ha, rfl⟩ := List.mem_map.mp hr
          have hmem := (List.mem_filter.mp ha).1
          have ha16 : a.type = 16 := by simpa using (List.mem_filter.mp ha).2
          simp [hall a hmem ha16]
        · intro resp2 answers rs h hA2 hok
          cases h
          rw [hA] at hA2
          cases hA2
          rw [hbody] at hok
          cases hok
          constructor
          · intro r hr
            have := List.of_mem_filter hr
            simpa using this
          · exact List.Sublist.trans (List.filter_sublist _)
              (List.Sublist.map (fun a => stripQuotes a.data)
                (List.filter_sublist answers0))
    · have herr : fetchSPFRecords (.success resp) = .error dnsStatusMsg := by
        simp only [fetchSPFRecords]
        rw [if_pos (by simp [hs])]
      refine ⟨⟨?_, fun _ => ⟨dnsStatusMsg, herr⟩⟩, ?_, ?_, ?_⟩
      · intro _ resp2 h
        cases h
        exact hs
      · intro resp2 h h0 _
        cases h
        exact absurd h0 hs
      · intro resp2 answers h h0 _ _
        cases h
        exact absurd h0 hs
      · intro resp2 answers rs h _ hok
        cases h
        rw [herr] at hok
        exact Except.noConfusion hok

theorem fetchSPFRecords_error_and_filter_witness :
    fetchSPFRecords outNoSPF = .ok [] :=
  (fetchSPFRecords_error_and_filter outNoSPF).2.2.1
    { Status := 0,
      Answer := some [{ type := 16, data := "\"hello\"".toList },
                      { type := 1, data := "\"v=spf1 x\"".toList }] }
    [{ type := 16, data := "\"hello\"".toList },
     { type := 1, data := "\"v=spf1 x\"".toList }]
    rfl (by decide) rfl (by decide)

/-- C9: `fetchIncludedDomain` never raises — it is a total function into
strings — and for every environment and domain it returns the first SPF
record when resolution succeeds with at least one record, the fixed
placeholder message when resolution succeeds with zero records, and the
`Error: `-prefixed message when resolution fails. -/
theorem fetchIncludedDomain_spec (env : Str → FetchOutcome) (d : Str) :
    (∀ r rs, fetchSPFRecords (env d) = .ok (r :: rs) → fetchIncludedDomain env d = r)
      ∧ (fetchSPFRecords (env d) = .ok [] → fetchIncludedDomain env d = noSPFMsg)
      ∧ (∀ e, fetchSPFRecords (env d) = .error e →
          fetchIncludedDomain env d = errMsgPre ++ e) := by
  refine ⟨?_, ?_, ?_⟩
  · intro r rs h
    unfold fetchIncludedDomain
    rw [h]
  · intro h
    unfold fetchIncludedDomain
    rw [h]
  · intro e h
    unfold fetchIncludedDomain
    rw [h]

theorem fetchIncludedDomain_spec_witness :
    fetchIncludedDomain envOneRec ("x.com".toList) = "v=spf1 -all".toList :=
  (fetchIncludedDomain_spec envOneRec ("x.com".toList)).1
    ("v=spf1 -all".toList) [] (by rfl)

/-- C10: for every record, the number of include-type edges returned by
`extractIncludes` equals the number of `include:` matches that
`countDNSLookups` adds to the direct count, and the domains of those edges
equal, in order, the `includeDomains` sequence over which `countDNSLookups`
iterates for recursion — both derive from the same non-whitespace run after
the `include:` prefix. -/
theorem includes_agreement (rec : Str) :
    ((extractIncludes rec).filter (fun e => e.type = incTypeStr)).length
        = (includeMatches rec).length
      ∧ ((extractIncludes rec).filter (fun e => e.type = incTypeStr)).map
          IncludeEdge.domain
        = includeDomains rec := by
  rw [extract_filter_inc, includeDomains_eq_scan]
  constructor
  · simp [includeMatches]
  · exact map_domain_id incTypeStr (scanTok incPat rec)

end SPFCheck
